import Mathlib

/-!
Verification of the pythoNinja function-format checker (src/src/extension.ts).

A document is modelled as a list of lines, a line as its list of characters
(`vscode.TextDocument` gives line-addressable access; `lineCount` is the list
length).  The four core functions `findFunctionStartLine`, `findEndOfFunction`,
`hasValidFormat` and the scan loop of `updateDiagnostics` are translated
directly from the TypeScript source; the quick-fix of `provideCodeActions` is
modelled as the document transformation produced by applying its two
insertions to one snapshot.
-/

namespace PythoNinja

/-- A line of text, as its character sequence. -/
abbrev Line := List Char

/-- A document: the list of its lines (`lineCount` = `doc.length`). -/
abbrev Doc := List Line

/-- The read `document.lineAt(i).text`, total version: out-of-range reads give
`[]`.  The fallible version used for the totality claim is `lineAt?` below. -/
def getLine (doc : Doc) (i : Nat) : Line := doc.getD i []

/-- The read `document.lineAt(i).text` as the fallible operation it is in the
host API: `none` models the exception thrown on an out-of-range index. -/
def lineAt? (doc : Doc) (i : Nat) : Option Line := doc[i]?

/-- JavaScript `String.prototype.trim`: strip whitespace from both ends. -/
def trim (l : Line) : Line :=
  ((l.dropWhile Char.isWhitespace).reverse.dropWhile Char.isWhitespace).reverse

/-- `TextLine.firstNonWhitespaceCharacterIndex`: the length of the leading
whitespace run (the whole length for an all-whitespace line). -/
def indentOf (l : Line) : Nat := (l.takeWhile Char.isWhitespace).length

/-- A JavaScript regex word character, `\w` = `[A-Za-z0-9_]`. -/
def isWordChar (c : Char) : Bool := c.isAlphanum || c == '_'

/-- The trimmed-text marker of a function definition line, `"def "`. -/
def defMarker : Line := "def ".toList

/-- The decorator marker, `"@"`. -/
def decoMarker : Line := "@".toList

/-- The regex match `text.match(/^def (\w+)/)?.[1]`: anchored at the start of
the RAW line text, `"def"`, one space, then a maximal nonempty run of word
characters, which is the captured name. -/
def matchDefName (text : Line) : Option Line :=
  if defMarker.isPrefixOf text then
    let name := (text.drop 4).takeWhile isWordChar
    if name.isEmpty then none else some name
  else none

/-- The loop body of `findFunctionStartLine`: `i` is the loop counter, `fuel`
the number of iterations left before `i` reaches `document.lineCount`. -/
def findStartGo (doc : Doc) (startLine : Nat) : Nat → Nat → Nat
  | _, 0 => startLine
  | i, fuel + 1 =>
    let line := trim (getLine doc i)
    if defMarker.isPrefixOf line then i
    else if !decoMarker.isPrefixOf line && !line.isEmpty then startLine
    else findStartGo doc startLine (i + 1) fuel

/-- The function `findFunctionStartLine(document, startLine)`: scan forward
from `startLine`; return the index of the first `def` line, skipping blank and
decorator lines; return `startLine` on any other line or at end of document. -/
def findFunctionStartLine (doc : Doc) (startLine : Nat) : Nat :=
  findStartGo doc startLine startLine (doc.length - startLine)

/-- The loop body of `findEndOfFunction`: `startInd` is the recorded
indentation of the start line, `i` the loop counter, `fuel` the iterations
left. -/
def findEndGo (doc : Doc) (startInd : Nat) : Nat → Nat → Nat
  | _, 0 => doc.length - 1
  | i, fuel + 1 =>
    let line := getLine doc i
    let lineText := trim line
    let currentInd := indentOf line
    if lineText.isEmpty then findEndGo doc startInd (i + 1) fuel
    else if currentInd < startInd || defMarker.isPrefixOf lineText then i - 1
    else findEndGo doc startInd (i + 1) fuel

/-- The function `findEndOfFunction(document, startLine)`: scan from
`startLine + 1`; blank lines never end the block; the first line with smaller
indentation or a new `def` ends it at the previous index; otherwise the last
line of the document. -/
def findEndOfFunction (doc : Doc) (startLine : Nat) : Nat :=
  findEndGo doc (indentOf (getLine doc startLine)) (startLine + 1)
    (doc.length - (startLine + 1))

/-- The fixed top-rule banner line. -/
def topBoundary : Line :=
  "# |-----------------------------------------------------------------------------|".toList

/-- The closing banner line for a function name. -/
def bottomBoundary (functionName : Line) : Line :=
  "# |-------------------------End of ".toList ++ functionName ++
    " ------------------------------|".toList

/-- The predicate `hasValidFormat(document, lineNumber, functionName)`:
re-resolve the start line, fail if it is `< 3`, then compare the three trimmed
lines above against the banner literals and check the prefix of the trimmed
def line.  The closing banner line is read (guarded) but not part of the
returned conjunction. -/
def hasValidFormat (doc : Doc) (lineNumber : Nat) (functionName : Line) : Bool :=
  let functionStartLine := findFunctionStartLine doc lineNumber
  if functionStartLine < 3 then false
  else
    let topBoundaryLine := trim (getLine doc (functionStartLine - 3))
    let functionCommentLine := trim (getLine doc (functionStartLine - 2))
    let middleBoundaryLine := trim (getLine doc (functionStartLine - 1))
    let functionDefinitionLine := trim (getLine doc functionStartLine)
    let lastFunctionLine := findEndOfFunction doc functionStartLine
    let _bottomBoundaryLine :=
      if lastFunctionLine + 1 < doc.length then trim (getLine doc (lastFunctionLine + 1))
      else ([] : Line)
    topBoundaryLine == topBoundary &&
    functionCommentLine == "# ".toList ++ functionName &&
    middleBoundaryLine == topBoundary &&
    (defMarker ++ functionName).isPrefixOf functionDefinitionLine

/-- A diagnostic emitted by the scan: its range starts at `startLine`. -/
structure Violation where
  startLine : Nat
  name : Line
  message : Line
deriving Repr, DecidableEq

/-- An ASCII single quote, kept out of string literals. -/
def quoteMark : Line := [Char.ofNat 39]

/-- The diagnostic message: Function, the quoted name, does not follow the
required format. -/
def violationMessage (functionName : Line) : Line :=
  "Function ".toList ++ quoteMark ++ functionName ++ quoteMark ++
    " does not follow the required format".toList

/-- One iteration of the `updateDiagnostics` loop: resolve the start line from
candidate index `i`, match the raw text of the resolved line against
`/^def (\w+)/`, and emit a diagnostic when the format is invalid. -/
def scanLine (doc : Doc) (i : Nat) : Option Violation :=
  let functionStartLine := findFunctionStartLine doc i
  match matchDefName (getLine doc functionStartLine) with
  | none => none
  | some functionName =>
    if hasValidFormat doc functionStartLine functionName then none
    else some ⟨functionStartLine, functionName, violationMessage functionName⟩

/-- The scan of `updateDiagnostics`: run `scanLine` for every `i` in
`[0, lineCount)` and collect the emitted diagnostics in order. -/
def updateDiagnostics (doc : Doc) : List Violation :=
  (List.range doc.length).filterMap (scanLine doc)

/-- Insert the closing insertion of the quick-fix, `"\n" + bottomComment + "\n"` at
`Position(pos, 0)`: before line `pos` this yields a blank line then the
banner; a position past the last line is clamped by the host to the end of
the document, where the same text appends the banner and a final blank line. -/
def insertClosing (doc : Doc) (pos : Nat) (bottom : Line) : Doc :=
  if pos < doc.length then doc.take pos ++ [[], bottom] ++ doc.drop pos
  else doc ++ [bottom, []]

/-- The quick-fix of `provideCodeActions` for one diagnostic at `lineNumber`:
both insertions are computed against the original snapshot; the three opening
banner lines go before the resolved start line and the closing text after the
end of the function.  When no name parses, no edit is made. -/
def generateFixDoc (doc : Doc) (lineNumber : Nat) : Doc :=
  let functionStartLine := findFunctionStartLine doc lineNumber
  match matchDefName (getLine doc functionStartLine) with
  | none => doc
  | some functionName =>
    let lastFunctionLine := findEndOfFunction doc lineNumber
    let withClosing :=
      insertClosing doc (lastFunctionLine + 1) (bottomBoundary functionName)
    withClosing.take functionStartLine ++
      [topBoundary, "# ".toList ++ functionName, topBoundary] ++
      withClosing.drop functionStartLine

/-- A line that `findFunctionStartLine` skips: blank, or a decorator line. -/
def skippable (l : Line) : Bool :=
  (trim l).isEmpty || decoMarker.isPrefixOf (trim l)

/-- A line whose trimmed text begins with the definition keyword `"def "`. -/
def isDefLine (l : Line) : Bool := defMarker.isPrefixOf (trim l)

/-- A line that ends the block started at indentation `startInd`: non-blank
and either less indented than the start line or a new `def`. -/
def endsBlock (startInd : Nat) (l : Line) : Bool :=
  !(trim l).isEmpty && (decide (indentOf l < startInd) || defMarker.isPrefixOf (trim l))

/-- The loop of `findFunctionStartLine` with every `lineAt` read fallible. -/
def findStartGoOpt (doc : Doc) (startLine : Nat) : Nat → Nat → Option Nat
  | _, 0 => some startLine
  | i, fuel + 1 => do
    let raw ← lineAt? doc i
    let line := trim raw
    if defMarker.isPrefixOf line then pure i
    else if !decoMarker.isPrefixOf line && !line.isEmpty then pure startLine
    else findStartGoOpt doc startLine (i + 1) fuel

/-- The function `findFunctionStartLine` with fallible line reads. -/
def findFunctionStartLineOpt (doc : Doc) (startLine : Nat) : Option Nat :=
  findStartGoOpt doc startLine startLine (doc.length - startLine)

/-- The loop of `findEndOfFunction` with every `lineAt` read fallible. -/
def findEndGoOpt (doc : Doc) (startInd : Nat) : Nat → Nat → Option Nat
  | _, 0 => some (doc.length - 1)
  | i, fuel + 1 => do
    let line ← lineAt? doc i
    let lineText := trim line
    let currentInd := indentOf line
    if lineText.isEmpty then findEndGoOpt doc startInd (i + 1) fuel
    else if currentInd < startInd || defMarker.isPrefixOf lineText then pure (i - 1)
    else findEndGoOpt doc startInd (i + 1) fuel

/-- The function `findEndOfFunction` with fallible line reads, including the
unguarded read of the start line for its indentation. -/
def findEndOfFunctionOpt (doc : Doc) (startLine : Nat) : Option Nat := do
  let startLineText ← lineAt? doc startLine
  findEndGoOpt doc (indentOf startLineText) (startLine + 1)
    (doc.length - (startLine + 1))

/-- The predicate `hasValidFormat` with fallible line reads: the three banner
reads, the def-line read, the end-of-function search and the guarded closing
banner read. -/
def hasValidFormatOpt (doc : Doc) (lineNumber : Nat) (functionName : Line) :
    Option Bool := do
  let functionStartLine ← findFunctionStartLineOpt doc lineNumber
  if functionStartLine < 3 then pure false
  else do
    let topRaw ← lineAt? doc (functionStartLine - 3)
    let commentRaw ← lineAt? doc (functionStartLine - 2)
    let middleRaw ← lineAt? doc (functionStartLine - 1)
    let defRaw ← lineAt? doc functionStartLine
    let lastFunctionLine ← findEndOfFunctionOpt doc functionStartLine
    let _bottomBoundaryLine ←
      if lastFunctionLine + 1 < doc.length then
        (do let b ← lineAt? doc (lastFunctionLine + 1); pure (trim b))
      else pure ([] : Line)
    pure (trim topRaw == topBoundary &&
      trim commentRaw == "# ".toList ++ functionName &&
      trim middleRaw == topBoundary &&
      (defMarker ++ functionName).isPrefixOf (trim defRaw))

/-- One iteration of the scan loop with fallible line reads: the outer `some`
means no exception; the inner option is the emitted diagnostic, if any. -/
def scanLineOpt (doc : Doc) (i : Nat) : Option (Option Violation) := do
  let functionStartLine ← findFunctionStartLineOpt doc i
  let raw ← lineAt? doc functionStartLine
  match matchDefName raw with
  | none => pure none
  | some functionName => do
    let ok ← hasValidFormatOpt doc functionStartLine functionName
    if ok then pure none
    else pure (some ⟨functionStartLine, functionName, violationMessage functionName⟩)

/-- The whole scan with fallible line reads: `none` would mean some line read
during the scan threw; `some vs` means the scan completed with result `vs`. -/
def updateDiagnosticsOpt (doc : Doc) : Option (List Violation) := do
  let results ← (List.range doc.length).mapM (scanLineOpt doc)
  pure (results.filterMap id)

/-- Example document: two decorator lines, then a def with no banner. -/
def exDeco : Doc :=
  ["@a".toList, "@b".toList, "def foo():".toList, "    return 1".toList]

/-- Example document: a two-line function starting at line 0 (no room for a
banner above). -/
def exTwoLine : Doc := ["def foo():".toList, "    return 1".toList]

/-- Example document: a single indented def line. -/
def exIndent : Doc := ["    def foo():".toList]

/-- Example document: a correctly bannered function except that the first
banner line carries three characters of leading whitespace. -/
def exLeadingWs : Doc :=
  ["   # |-----------------------------------------------------------------------------|".toList,
   "# foo".toList,
   "# |-----------------------------------------------------------------------------|".toList,
   "def foo():".toList]

/-- Example document: a correctly bannered two-line function. -/
def exValid : Doc :=
  ["# |-----------------------------------------------------------------------------|".toList,
   "# foo".toList,
   "# |-----------------------------------------------------------------------------|".toList,
   "def foo():".toList,
   "    return 1".toList]

/-- Example document: `exValid` with one extra line after the function body,
differing only in the line after the block end. -/
def exValidPlus : Doc := exValid ++ ["x = 3".toList]

/-- Example document: a banner whose name-comment line carries the wrong
name. -/
def exBadName : Doc :=
  ["# |-----------------------------------------------------------------------------|".toList,
   "# bar".toList,
   "# |-----------------------------------------------------------------------------|".toList,
   "def foo():".toList]

end PythoNinja
namespace PythoNinja

/-- An in-range fallible read agrees with the total read. -/
lemma lineAt?_eq_some {doc : Doc} {i : Nat} (h : i < doc.length) :
    lineAt? doc i = some (getLine doc i) := by
  simp [lineAt?, getLine, List.getElem?_eq_getElem h, List.getD_eq_getElem?_getD]

/-- An out-of-range total read gives the empty line. -/
lemma getLine_eq_nil {doc : Doc} {i : Nat} (h : doc.length ≤ i) :
    getLine doc i = [] := List.getD_eq_default _ _ h

/-- Word characters are not whitespace. -/
lemma not_whitespace_of_isWordChar {c : Char} (h : isWordChar c = true) :
    c.isWhitespace = false := by
  by_contra hws
  rw [Bool.not_eq_false] at hws
  simp only [Char.isWhitespace, Bool.or_eq_true, decide_eq_true_eq] at hws
  rcases hws with ((h1 | h1) | h1) | h1 <;> subst h1 <;> exact absurd h (by decide)

/-- Dropping leading whitespace from a line whose head is not whitespace is
the identity. -/
lemma dropWhile_ws_eq_self {l : Line}
    (h : ∀ c, l.head? = some c → c.isWhitespace = false) :
    l.dropWhile Char.isWhitespace = l := by
  cases l with
  | nil => rfl
  | cons a as => rw [List.dropWhile_cons, h a rfl]; simp

/-- Trimming a line whose first and last characters are not whitespace is the
identity. -/
lemma trim_eq_self {l : Line}
    (h1 : ∀ c, l.head? = some c → c.isWhitespace = false)
    (h2 : ∀ c, l.getLast? = some c → c.isWhitespace = false) :
    trim l = l := by
  unfold trim
  rw [dropWhile_ws_eq_self h1, dropWhile_ws_eq_self, List.reverse_reverse]
  intro c hc
  rw [List.head?_reverse] at hc
  exact h2 c hc

/-- The facts carried by a successful `/^def (\w+)/` match: the raw text is
the marker, the nonempty all-word-character name, then the rest. -/
lemma matchDefName_some {t name : Line} (h : matchDefName t = some name) :
    name ≠ [] ∧ (∀ c ∈ name, isWordChar c = true) ∧
      t = defMarker ++ name ++ (t.drop 4).dropWhile isWordChar := by
  unfold matchDefName at h
  by_cases hp : defMarker.isPrefixOf t
  · simp only [hp, if_true] at h
    by_cases he : ((t.drop 4).takeWhile isWordChar).isEmpty
    · simp [he] at h
    · simp only [he, if_false, Option.some.injEq, Bool.false_eq_true] at h
      subst h
      refine ⟨by simpa [List.isEmpty_iff] using he,
        fun c hc => List.mem_takeWhile_imp hc, ?_⟩
      obtain ⟨u, hu⟩ := List.isPrefixOf_iff_prefix.mp hp
      conv_lhs => rw [← hu]
      have hd4 : t.drop 4 = u := by rw [← hu]; rfl
      rw [hd4, List.append_assoc, List.takeWhile_append_dropWhile]
  · simp [hp] at h

/-- An empty line never matches the def pattern. -/
lemma matchDefName_nil : matchDefName ([] : Line) = none := rfl

end PythoNinja
namespace PythoNinja

/-- Trimming preserves the `"def " + name` prefix of a matched raw line: the
trimmed text is the marker, the name, and a trimmed tail. -/
lemma trim_of_matchDefName {t name : Line} (h : matchDefName t = some name) :
    ∃ w, trim t = defMarker ++ name ++ w := by
  obtain ⟨hne, hw, ht⟩ := matchDefName_some h
  set tail := (t.drop 4).dropWhile isWordChar with htail
  obtain ⟨c, nrest, hc⟩ : ∃ c nrest, name = c :: nrest := by
    cases name with
    | nil => exact absurd rfl hne
    | cons c nrest => exact ⟨c, nrest, rfl⟩
  have hlast : ∀ d, name.reverse.head? = some d → d.isWhitespace = false := by
    intro d hd
    rw [List.head?_reverse] at hd
    exact not_whitespace_of_isWordChar (hw d (List.mem_of_mem_getLast? hd))
  have hrev : t.reverse = tail.reverse ++ (name.reverse ++ defMarker.reverse) := by
    rw [ht]
    simp [List.reverse_append]
  have hstep1 : t.dropWhile Char.isWhitespace = t := by
    apply dropWhile_ws_eq_self
    intro d hd
    rw [ht] at hd
    simp only [defMarker] at hd
    simp at hd
    subst hd
    decide
  have hdropname : (name.reverse ++ defMarker.reverse).dropWhile Char.isWhitespace
      = name.reverse ++ defMarker.reverse := by
    apply dropWhile_ws_eq_self
    intro d hd
    have hnn : name.reverse ≠ [] := by simp [hc]
    rw [List.head?_append_of_ne_nil _ hnn] at hd
    exact hlast d hd
  have hstep2 : t.reverse.dropWhile Char.isWhitespace
      = (tail.reverse.dropWhile Char.isWhitespace) ++ (name.reverse ++ defMarker.reverse) := by
    rw [hrev, List.dropWhile_append]
    by_cases he : (tail.reverse.dropWhile Char.isWhitespace).isEmpty
    · rw [if_pos he, hdropname]
      rw [List.isEmpty_iff] at he
      rw [he]
      simp
    · rw [if_neg (by simp [he])]
  refine ⟨(tail.reverse.dropWhile Char.isWhitespace).reverse, ?_⟩
  unfold trim
  rw [hstep1, hstep2]
  simp [List.reverse_append]

/-- Trimming a matched raw line yields a line that still begins with the
definition marker. -/
lemma trim_def_of_matchDefName {t name : Line} (h : matchDefName t = some name) :
    defMarker.isPrefixOf (trim t) = true := by
  obtain ⟨w, hw⟩ := trim_of_matchDefName h
  rw [List.isPrefixOf_iff_prefix, hw, List.append_assoc]
  exact List.prefix_append _ _

end PythoNinja
namespace PythoNinja

/-- The search loop stays below the document length. -/
lemma findStartGo_lt {doc : Doc} {s : Nat} :
    ∀ fuel i, i + fuel ≤ doc.length → s < doc.length →
      findStartGo doc s i fuel < doc.length := by
  intro fuel
  induction fuel with
  | zero => intro i _ hs; simpa [findStartGo] using hs
  | succ n ih =>
    intro i hle hs
    simp only [findStartGo]
    split
    · omega
    · split
      · exact hs
      · exact ih (i + 1) (by omega) hs

/-- Resolution keeps the start line in range. -/
lemma findFunctionStartLine_lt {doc : Doc} {i : Nat} (h : i < doc.length) :
    findFunctionStartLine doc i < doc.length := by
  unfold findFunctionStartLine
  exact findStartGo_lt _ i (by omega) h

/-- Resolving from a line whose trimmed text already begins with the
definition marker is the identity. -/
lemma findFunctionStartLine_self {doc : Doc} {s : Nat}
    (h : defMarker.isPrefixOf (trim (getLine doc s)) = true) :
    findFunctionStartLine doc s = s := by
  unfold findFunctionStartLine
  cases hf : doc.length - s with
  | zero => rfl
  | succ n => simp [findStartGo, h]

/-- The name-comment banner line trims to itself for any matched name. -/
lemma trim_comment_line {name : Line} (hne : name ≠ [])
    (hw : ∀ c ∈ name, isWordChar c = true) :
    trim ("# ".toList ++ name) = "# ".toList ++ name := by
  apply trim_eq_self
  · intro c hc
    simp at hc
    subst hc
    decide
  · intro c hc
    rw [List.getLast?_append_of_ne_nil _ hne] at hc
    exact not_whitespace_of_isWordChar (hw c (List.mem_of_mem_getLast? hc))

/-- The top-rule literal trims to itself. -/
lemma trim_topBoundary : trim topBoundary = topBoundary := rfl

/-- Characterization of `hasValidFormat` at a line whose trimmed text begins
with the definition marker: start-line resolution is the identity and the
result is exactly the four-part banner check. -/
lemma hasValidFormat_char {doc : Doc} {s : Nat} {name : Line}
    (h : defMarker.isPrefixOf (trim (getLine doc s)) = true) :
    hasValidFormat doc s name = true ↔
      3 ≤ s ∧ trim (getLine doc (s - 3)) = topBoundary ∧
      trim (getLine doc (s - 2)) = "# ".toList ++ name ∧
      trim (getLine doc (s - 1)) = topBoundary ∧
      defMarker ++ name <+: trim (getLine doc s) := by
  unfold hasValidFormat
  rw [findFunctionStartLine_self h]
  by_cases h3 : s < 3
  · simp [h3]
  · simp only [h3, if_false, Bool.false_eq_true]
    rw [Bool.and_eq_true, Bool.and_eq_true, Bool.and_eq_true]
    rw [beq_iff_eq, beq_iff_eq, beq_iff_eq, List.isPrefixOf_iff_prefix]
    constructor
    · rintro ⟨⟨⟨h1, h2⟩, h4⟩, h5⟩
      exact ⟨by omega, h1, h2, h4, h5⟩
    · rintro ⟨_, h1, h2, h4, h5⟩
      exact ⟨⟨⟨h1, h2⟩, h4⟩, h5⟩

/-- A resolved start line with a matched name and an invalid format makes the
scan loop emit the corresponding diagnostic at that index. -/
lemma scanLine_emits {doc : Doc} {s : Nat} {name : Line}
    (hm : matchDefName (getLine doc s) = some name)
    (hv : hasValidFormat doc s name = false) :
    scanLine doc s = some ⟨s, name, violationMessage name⟩ := by
  unfold scanLine
  simp only [findFunctionStartLine_self (trim_def_of_matchDefName hm)]
  rw [hm]
  simp [hv]

/-- A line index whose raw text matches the def pattern lies in the document. -/
lemma lt_length_of_matchDefName {doc : Doc} {s : Nat} {name : Line}
    (hm : matchDefName (getLine doc s) = some name) : s < doc.length := by
  by_contra hge
  rw [getLine_eq_nil (by omega)] at hm
  exact absurd (matchDefName_nil.symm.trans hm) (by simp)

/-- Any index with a matched name and an invalid format contributes its
diagnostic to the scan result. -/
lemma mem_updateDiagnostics {doc : Doc} {s : Nat} {name : Line}
    (hm : matchDefName (getLine doc s) = some name)
    (hv : hasValidFormat doc s name = false) :
    (⟨s, name, violationMessage name⟩ : Violation) ∈ updateDiagnostics doc := by
  unfold updateDiagnostics
  rw [List.mem_filterMap]
  exact ⟨s, List.mem_range.mpr (lt_length_of_matchDefName hm), scanLine_emits hm hv⟩

end PythoNinja
namespace PythoNinja

/-- A skippable line is never a definition line. -/
lemma not_def_of_skippable {l : Line} (h : skippable l = true) :
    isDefLine l = false := by
  unfold skippable at h
  rcases Bool.or_eq_true _ _ |>.mp h with he | hd
  · rw [List.isEmpty_iff] at he
    rw [isDefLine, he]
    rfl
  · obtain ⟨w, hw⟩ := List.isPrefixOf_iff_prefix.mp hd
    unfold isDefLine
    rw [← hw]
    rw [Bool.eq_false_iff]
    intro hc
    have := List.isPrefixOf_iff_prefix.mp hc
    rw [show decoMarker ++ w = '@' :: w from rfl] at this
    rw [show defMarker = 'd' :: "ef ".toList from rfl] at this
    exact absurd (List.cons_prefix_cons.mp this).1 (by decide)

/-- A skippable line makes the search loop continue. -/
lemma findStartGo_skip {doc : Doc} {s i fuel : Nat}
    (h : skippable (getLine doc i) = true) :
    findStartGo doc s i (fuel + 1) = findStartGo doc s (i + 1) fuel := by
  have hd := not_def_of_skippable h
  unfold isDefLine at hd
  unfold skippable at h
  simp only [findStartGo, hd, if_false, Bool.false_eq_true]
  rcases Bool.or_eq_true _ _ |>.mp h with he | hdc
  · simp [he]
  · simp [hdc]

/-- If the first non-skippable line at or after `i` is a definition line `j`,
the search loop returns `j`. -/
lemma findStartGo_found {doc : Doc} {s j : Nat} :
    ∀ fuel i, i ≤ j → j < i + fuel →
      (∀ k, i ≤ k → k < j → skippable (getLine doc k) = true) →
      isDefLine (getLine doc j) = true →
      findStartGo doc s i fuel = j := by
  intro fuel
  induction fuel with
  | zero => intro i h1 h2 _ _; omega
  | succ n ih =>
    intro i h1 h2 hsk hdef
    rcases Nat.eq_or_lt_of_le h1 with he | hlt
    · subst he
      unfold isDefLine at hdef
      simp [findStartGo, hdef]
    · rw [findStartGo_skip (hsk i le_rfl hlt)]
      exact ih (i + 1) hlt (by omega) (fun k hk1 hk2 => hsk k (by omega) hk2) hdef

/-- If the first non-skippable line at or after `i` is not a definition line,
the search loop returns the original argument. -/
lemma findStartGo_blocked {doc : Doc} {s j : Nat} :
    ∀ fuel i, i ≤ j → j < i + fuel →
      (∀ k, i ≤ k → k < j → skippable (getLine doc k) = true) →
      isDefLine (getLine doc j) = false →
      skippable (getLine doc j) = false →
      findStartGo doc s i fuel = s := by
  intro fuel
  induction fuel with
  | zero => intro i h1 h2 _ _ _; omega
  | succ n ih =>
    intro i h1 h2 hsk hdef hnsk
    rcases Nat.eq_or_lt_of_le h1 with he | hlt
    · subst he
      unfold isDefLine at hdef
      unfold skippable at hnsk
      rw [Bool.or_eq_false_iff] at hnsk
      simp [findStartGo, hdef, hnsk.1, hnsk.2]
    · rw [findStartGo_skip (hsk i le_rfl hlt)]
      exact ih (i + 1) hlt (by omega) (fun k hk1 hk2 => hsk k (by omega) hk2) hdef hnsk

/-- If every remaining line is skippable, the search loop returns the
original argument. -/
lemma findStartGo_allSkip {doc : Doc} {s : Nat} :
    ∀ fuel i, (∀ k, i ≤ k → k < i + fuel → skippable (getLine doc k) = true) →
      findStartGo doc s i fuel = s := by
  intro fuel
  induction fuel with
  | zero => intro i _; rfl
  | succ n ih =>
    intro i hsk
    rw [findStartGo_skip (hsk i le_rfl (by omega))]
    exact ih (i + 1) (fun k hk1 hk2 => hsk k (by omega) (by omega))

/-- A non-ending line makes the end-search loop continue. -/
lemma findEndGo_cont {doc : Doc} {ind i fuel : Nat}
    (h : endsBlock ind (getLine doc i) = false) :
    findEndGo doc ind i (fuel + 1) = findEndGo doc ind (i + 1) fuel := by
  unfold endsBlock at h
  rw [Bool.and_eq_false_iff] at h
  rcases h with he | hor
  · have he' : (trim (getLine doc i)).isEmpty = true := by simpa using he
    simp [findEndGo, he']
  · rw [Bool.or_eq_false_iff] at hor
    have hge : ¬ indentOf (getLine doc i) < ind := by simpa using hor.1
    simp only [findEndGo]
    by_cases he : (trim (getLine doc i)).isEmpty
    · simp [he]
    · simp [he, hor.2, hge]

/-- If the first ending line after the start is `j`, the end-search loop
returns `j - 1`. -/
lemma findEndGo_found {doc : Doc} {ind j : Nat} :
    ∀ fuel i, i ≤ j → j < i + fuel →
      (∀ k, i ≤ k → k < j → endsBlock ind (getLine doc k) = false) →
      endsBlock ind (getLine doc j) = true →
      findEndGo doc ind i fuel = j - 1 := by
  intro fuel
  induction fuel with
  | zero => intro i h1 h2 _ _; omega
  | succ n ih =>
    intro i h1 h2 hnb hend
    rcases Nat.eq_or_lt_of_le h1 with he | hlt
    · subst he
      unfold endsBlock at hend
      rw [Bool.and_eq_true] at hend
      rcases hend with ⟨he1, he2⟩
      rw [Bool.not_eq_true'] at he1
      rcases Bool.or_eq_true _ _ |>.mp he2 with hlt2 | hdf
    
      · simp [findEndGo, he1, decide_eq_true_eq.mp hlt2]
      · simp [findEndGo, he1, hdf]
    · rw [findEndGo_cont (hnb i le_rfl hlt)]
      exact ih (i + 1) hlt (by omega) (fun k hk1 hk2 => hnb k (by omega) hk2) hend

/-- If no remaining line ends the block, the end-search loop returns the last
line of the document. -/
lemma findEndGo_none {doc : Doc} {ind : Nat} :
    ∀ fuel i, (∀ k, i ≤ k → k < i + fuel → endsBlock ind (getLine doc k) = false) →
      findEndGo doc ind i fuel = doc.length - 1 := by
  intro fuel
  induction fuel with
  | zero => intro i _; rfl
  | succ n ih =>
    intro i hnb
    rw [findEndGo_cont (hnb i le_rfl (by omega))]
    exact ih (i + 1) (fun k hk1 hk2 => hnb k (by omega) (by omega))

/-- The end of a function never precedes its start line. -/
lemma findEndGo_ge {doc : Doc} {ind s : Nat} :
    ∀ fuel i, s + 1 ≤ i → s ≤ doc.length - 1 →
      s ≤ findEndGo doc ind i fuel := by
  intro fuel
  induction fuel with
  | zero => intro i _ h2; exact h2
  | succ n ih =>
    intro i h1 h2
    simp only [findEndGo]
    split
    · exact ih (i + 1) (by omega) h2
    · split
      · omega
      · exact ih (i + 1) (by omega) h2

/-- The end of a function never precedes its start line. -/
lemma findEndOfFunction_ge {doc : Doc} {s : Nat} (h : s < doc.length) :
    s ≤ findEndOfFunction doc s :=
  findEndGo_ge _ (s + 1) le_rfl (by omega)

end PythoNinja
namespace PythoNinja

/-- Reading inside the left part of an appended document. -/
lemma getLine_append_left {a b : Doc} {i : Nat} (h : i < a.length) :
    getLine (a ++ b) i = getLine a i := by
  simp [getLine, List.getD_eq_getElem?_getD, List.getElem?_append_left h]

/-- Reading inside the right part of an appended document. -/
lemma getLine_append_right {a b : Doc} {i : Nat} (h : a.length ≤ i) :
    getLine (a ++ b) i = getLine b (i - a.length) := by
  simp [getLine, List.getD_eq_getElem?_getD, List.getElem?_append_right h]

/-- Reading inside a document prefix. -/
lemma getLine_take {doc : Doc} {n i : Nat} (h : i < n) :
    getLine (doc.take n) i = getLine doc i := by
  simp [getLine, List.getD_eq_getElem?_getD, List.getElem?_take_of_lt h]

/-- The closing insertion adds exactly two lines. -/
lemma insertClosing_length {doc : Doc} {pos : Nat} {b : Line} :
    (insertClosing doc pos b).length = doc.length + 2 := by
  unfold insertClosing
  split
  · simp; omega
  · simp

/-- Lines strictly before the closing insertion point are unchanged. -/
lemma getLine_insertClosing {doc : Doc} {pos : Nat} {b : Line} {i : Nat}
    (h1 : i < pos) (h2 : i < doc.length) :
    getLine (insertClosing doc pos b) i = getLine doc i := by
  unfold insertClosing
  split
  · rw [List.append_assoc, getLine_append_left (by rw [List.length_take]; omega),
      getLine_take h1]
  · rw [getLine_append_left h2]

end PythoNinja
namespace PythoNinja

/-- Reading past a drop shifts the index. -/
lemma getLine_drop {doc : Doc} {n i : Nat} :
    getLine (doc.drop n) i = getLine doc (n + i) := by
  simp [getLine, List.getD_eq_getElem?_getD, List.getElem?_drop]

/-- Inversion of one scan-loop iteration that emitted a diagnostic. -/
lemma scanLine_inv {doc : Doc} {i : Nat} {v : Violation}
    (h : scanLine doc i = some v) :
    v.startLine = findFunctionStartLine doc i ∧
    matchDefName (getLine doc v.startLine) = some v.name ∧
    hasValidFormat doc v.startLine v.name = false ∧
    v.message = violationMessage v.name := by
  unfold scanLine at h
  simp only [] at h
  cases hm : matchDefName (getLine doc (findFunctionStartLine doc i)) with
  | none => rw [hm] at h; exact absurd h (by simp)
  | some name =>
    rw [hm] at h
    simp only [] at h
    by_cases hv : hasValidFormat doc (findFunctionStartLine doc i) name = true
    · rw [if_pos hv] at h; exact absurd h (by simp)
    · rw [if_neg hv] at h
      obtain rfl := Option.some_inj.mp h.symm
      exact ⟨rfl, hm, Bool.eq_false_iff.mpr hv, rfl⟩

/-- Inversion of scan membership: every reported violation comes from some
candidate index. -/
lemma updateDiagnostics_inv {doc : Doc} {v : Violation}
    (h : v ∈ updateDiagnostics doc) :
    ∃ i, i < doc.length ∧ scanLine doc i = some v := by
  unfold updateDiagnostics at h
  rw [List.mem_filterMap] at h
  obtain ⟨i, hi, hs⟩ := h
  exact ⟨i, List.mem_range.mp hi, hs⟩

/-- Unfolding of the quick-fix at a line whose raw text matches the pattern. -/
lemma generateFixDoc_eq {doc : Doc} {s : Nat} {name : Line}
    (hm : matchDefName (getLine doc s) = some name) :
    generateFixDoc doc s =
      (insertClosing doc (findEndOfFunction doc s + 1) (bottomBoundary name)).take s ++
        [topBoundary, "# ".toList ++ name, topBoundary] ++
        (insertClosing doc (findEndOfFunction doc s + 1) (bottomBoundary name)).drop s := by
  unfold generateFixDoc
  simp only [findFunctionStartLine_self (trim_def_of_matchDefName hm)]
  rw [hm]

/-- The four lines at and above the relocated def line of a fixed document:
the three inserted banner lines and the original def line. -/
lemma generateFixDoc_lines {doc : Doc} {s : Nat} {name : Line}
    (hm : matchDefName (getLine doc s) = some name) :
    getLine (generateFixDoc doc s) s = topBoundary ∧
    getLine (generateFixDoc doc s) (s + 1) = "# ".toList ++ name ∧
    getLine (generateFixDoc doc s) (s + 2) = topBoundary ∧
    getLine (generateFixDoc doc s) (s + 3) = getLine doc s := by
  have hlen : s < doc.length := lt_length_of_matchDefName hm
  have hse : s ≤ findEndOfFunction doc s := findEndOfFunction_ge hlen
  have htl : ((insertClosing doc (findEndOfFunction doc s + 1)
      (bottomBoundary name)).take s).length = s := by
    rw [List.length_take, insertClosing_length]
    omega
  have hmain : ∀ k, getLine (generateFixDoc doc s) (s + k) =
      getLine ([topBoundary, "# ".toList ++ name, topBoundary] ++
        (insertClosing doc (findEndOfFunction doc s + 1)
          (bottomBoundary name)).drop s) k := by
    intro k
    rw [generateFixDoc_eq hm, List.append_assoc,
      getLine_append_right (by rw [htl]; omega), htl]
    congr 1
    omega
  refine ⟨by simpa [getLine] using hmain 0, by simpa [getLine] using hmain 1,
    by simpa [getLine] using hmain 2, ?_⟩
  have h3 := hmain 3
  rw [getLine_append_right (by simp)] at h3
  rw [h3, getLine_drop, getLine_insertClosing (by simp; omega) (by simpa)]
  norm_num

/-- The fixed document passes validation at the relocated def line. -/
lemma hasValidFormat_generateFixDoc {doc : Doc} {s : Nat} {name : Line}
    (hm : matchDefName (getLine doc s) = some name) :
    hasValidFormat (generateFixDoc doc s) (s + 3) name = true := by
  obtain ⟨hne, hw, _⟩ := matchDefName_some hm
  obtain ⟨l0, l1, l2, l3⟩ := generateFixDoc_lines hm
  have hdef3 : defMarker.isPrefixOf (trim (getLine (generateFixDoc doc s) (s + 3))) = true := by
    rw [l3]
    exact trim_def_of_matchDefName hm
  rw [hasValidFormat_char hdef3]
  refine ⟨by omega, ?_, ?_, ?_, ?_⟩
  · rw [show s + 3 - 3 = s from by omega, l0, trim_topBoundary]
  · rw [show s + 3 - 2 = s + 1 from by omega, l1]
    exact trim_comment_line hne hw
  · rw [show s + 3 - 1 = s + 2 from by omega, l2, trim_topBoundary]
  · rw [l3]
    obtain ⟨w, hwt⟩ := trim_of_matchDefName hm
    rw [hwt, List.append_assoc]
    exact List.prefix_append _ _

end PythoNinja
namespace PythoNinja

/-- The fallible search loop never throws while the loop bound is in range,
and agrees with the total loop. -/
lemma findStartGoOpt_eq {doc : Doc} {s : Nat} :
    ∀ fuel i, i + fuel ≤ doc.length →
      findStartGoOpt doc s i fuel = some (findStartGo doc s i fuel) := by
  intro fuel
  induction fuel with
  | zero => intro i _; rfl
  | succ n ih =>
    intro i hle
    have hi : i < doc.length := by omega
    simp only [findStartGoOpt, findStartGo, lineAt?_eq_some hi, Option.bind_eq_bind,
      Option.some_bind]
    by_cases h1 : defMarker.isPrefixOf (trim (getLine doc i)) = true
    · simp [h1]
    · by_cases h2 : (!decoMarker.isPrefixOf (trim (getLine doc i)) &&
          !(trim (getLine doc i)).isEmpty) = true
      · simp [h1, h2]
      · simp only [h1, h2, if_false, Bool.false_eq_true]
        exact ih (i + 1) (by omega)

/-- The fallible start-line resolution never throws and agrees with the total
resolution. -/
lemma findFunctionStartLineOpt_eq {doc : Doc} {s : Nat} :
    findFunctionStartLineOpt doc s = some (findFunctionStartLine doc s) := by
  unfold findFunctionStartLineOpt findFunctionStartLine
  by_cases h : s ≤ doc.length
  · exact findStartGoOpt_eq _ s (by omega)
  · rw [Nat.sub_eq_zero_of_le (by omega)]
    rfl

/-- The fallible end-search loop never throws while the loop bound is in
range, and agrees with the total loop. -/
lemma findEndGoOpt_eq {doc : Doc} {ind : Nat} :
    ∀ fuel i, i + fuel ≤ doc.length →
      findEndGoOpt doc ind i fuel = some (findEndGo doc ind i fuel) := by
  intro fuel
  induction fuel with
  | zero => intro i _; rfl
  | succ n ih =>
    intro i hle
    have hi : i < doc.length := by omega
    simp only [findEndGoOpt, findEndGo, lineAt?_eq_some hi, Option.bind_eq_bind,
      Option.some_bind]
    by_cases h1 : (trim (getLine doc i)).isEmpty = true
    · simp only [h1, if_true]
      exact ih (i + 1) (by omega)
    · by_cases h2 : (indentOf (getLine doc i) < ind ∨
          defMarker.isPrefixOf (trim (getLine doc i)) = true)
      · have h2' : (decide (indentOf (getLine doc i) < ind) ||
            defMarker.isPrefixOf (trim (getLine doc i))) = true := by
          rcases h2 with h | h
          · simp [h]
          · simp [h]
        simp [h1, h2']
      · have h2' : (decide (indentOf (getLine doc i) < ind) ||
            defMarker.isPrefixOf (trim (getLine doc i))) = false := by
          push_neg at h2
          simp [h2.1, h2.2]
        simp only [h1, h2', if_false, Bool.false_eq_true]
        exact ih (i + 1) (by omega)

/-- The fallible end-of-function search never throws on an in-range start
line and agrees with the total search. -/
lemma findEndOfFunctionOpt_eq {doc : Doc} {s : Nat} (h : s < doc.length) :
    findEndOfFunctionOpt doc s = some (findEndOfFunction doc s) := by
  unfold findEndOfFunctionOpt findEndOfFunction
  rw [lineAt?_eq_some h]
  simp only [Option.bind_eq_bind, Option.some_bind]
  exact findEndGoOpt_eq _ (s + 1) (by omega)

/-- The fallible format check never throws on an in-range line and agrees
with the total check. -/
lemma hasValidFormatOpt_eq {doc : Doc} {i : Nat} {name : Line} (h : i < doc.length) :
    hasValidFormatOpt doc i name = some (hasValidFormat doc i name) := by
  have hs : findFunctionStartLine doc i < doc.length := findFunctionStartLine_lt h
  unfold hasValidFormatOpt hasValidFormat
  rw [findFunctionStartLineOpt_eq]
  simp only [Option.bind_eq_bind, Option.some_bind]
  by_cases h3 : findFunctionStartLine doc i < 3
  · simp [h3]
  · simp only [h3, if_false]
    rw [lineAt?_eq_some (by omega), lineAt?_eq_some (by omega),
      lineAt?_eq_some (by omega), lineAt?_eq_some hs,
      findEndOfFunctionOpt_eq hs]
    simp only [Option.bind_eq_bind, Option.some_bind]
    by_cases hb : findEndOfFunction doc (findFunctionStartLine doc i) + 1 < doc.length
    · rw [if_pos hb, lineAt?_eq_some hb]
      simp
    · rw [if_neg hb]
      simp

/-- One fallible scan iteration never throws on an in-range candidate index
and agrees with the total iteration. -/
lemma scanLineOpt_eq {doc : Doc} {i : Nat} (h : i < doc.length) :
    scanLineOpt doc i = some (scanLine doc i) := by
  have hs : findFunctionStartLine doc i < doc.length := findFunctionStartLine_lt h
  unfold scanLineOpt scanLine
  rw [findFunctionStartLineOpt_eq]
  simp only [Option.bind_eq_bind, Option.some_bind]
  rw [lineAt?_eq_some hs]
  simp only [Option.some_bind]
  cases hm : matchDefName (getLine doc (findFunctionStartLine doc i)) with
  | none => rfl
  | some name =>
    simp only []
    rw [hasValidFormatOpt_eq hs]
    simp only [Option.some_bind]
    by_cases hv : hasValidFormat doc (findFunctionStartLine doc i) name = true
    · simp [hv]
    · simp [hv]

/-- Mapping the fallible scan iteration over in-range indices never throws. -/
lemma mapM_scanLineOpt {doc : Doc} :
    ∀ l : List Nat, (∀ i ∈ l, i < doc.length) →
      l.mapM (scanLineOpt doc) = some (l.map (scanLine doc)) := by
  intro l
  induction l with
  | nil => intro _; rfl
  | cons a t ih =>
    intro hmem
    rw [List.mapM_cons, scanLineOpt_eq (hmem a (by simp)),
      ih (fun i hi => hmem i (by simp [hi]))]
    rfl

end PythoNinja
namespace PythoNinja

/-- C1: at a line whose trimmed text begins with the definition keyword (a
line naming a function), `hasValidFormat doc startLine name` returns true iff
`startLine ≥ 3`, the trimmed lines `startLine-3` and `startLine-1` equal the
fixed top-rule string, the trimmed line `startLine-2` equals the name comment,
and the trimmed line `startLine` begins with the def keyword and the name; in
particular it returns false whenever `startLine < 3`. -/
theorem claim_C1_isValidFormat_characterization (doc : Doc) (startLine : Nat)
    (name : Line)
    (h : defMarker.isPrefixOf (trim (getLine doc startLine)) = true) :
    (hasValidFormat doc startLine name = true ↔
      3 ≤ startLine ∧
      trim (getLine doc (startLine - 3)) = topBoundary ∧
      trim (getLine doc (startLine - 2)) = "# ".toList ++ name ∧
      trim (getLine doc (startLine - 1)) = topBoundary ∧
      defMarker ++ name <+: trim (getLine doc startLine)) ∧
    (startLine < 3 → hasValidFormat doc startLine name = false) := by
  refine ⟨hasValidFormat_char h, fun h3 => ?_⟩
  rw [Bool.eq_false_iff]
  intro ht
  have hge := ((hasValidFormat_char h).mp ht).1
  omega

/-- Witness for C1 at the correctly bannered example document. -/
theorem claim_C1_witness : hasValidFormat exValid 3 ("foo".toList) = true :=
  (claim_C1_isValidFormat_characterization exValid 3 ("foo".toList)
    (by decide)).1.mpr
    ⟨by omega, by decide, by decide, by decide,
      List.isPrefixOf_iff_prefix.mp (by decide)⟩

/-- C2 counterexample: in the two-decorator scenario the scan reports start
line 2 three times, so a start line can appear more than once and the scan
does not produce exactly one violation. -/
theorem claim_C2_counterexample :
    (updateDiagnostics exDeco).map Violation.startLine = [2, 2, 2] := rfl

/-- C2 amended: in the two-decorator scenario the scan emits one violation
per candidate line of the chain, three in total, each with start line 2 (the
def line) and never the decorator line 0. -/
theorem claim_C2_amended_scan_duplicates :
    updateDiagnostics exDeco =
      [⟨2, "foo".toList, violationMessage ("foo".toList)⟩,
       ⟨2, "foo".toList, violationMessage ("foo".toList)⟩,
       ⟨2, "foo".toList, violationMessage ("foo".toList)⟩] := rfl

/-- C3 counterexample: an indented def line matches the detection pattern on
its trimmed text and fails validation, yet the scan emits no violation,
because the source applies the pattern to the raw, untrimmed line text. -/
theorem claim_C3_counterexample :
    matchDefName (trim (getLine exIndent 0)) = some ("foo".toList) ∧
    hasValidFormat exIndent 0 ("foo".toList) = false ∧
    updateDiagnostics exIndent = [] := ⟨rfl, rfl, rfl⟩

/-- C3 amended: for every line whose RAW text matches the pattern
`def <name>` at column zero, if validation fails the scan emits the violation
at that line with the required message. -/
theorem claim_C3_amended_raw_match_emits (doc : Doc) (s : Nat) (name : Line)
    (hm : matchDefName (getLine doc s) = some name)
    (hv : hasValidFormat doc s name = false) :
    (⟨s, name, violationMessage name⟩ : Violation) ∈ updateDiagnostics doc :=
  mem_updateDiagnostics hm hv

/-- Witness for C3 at the bannerless two-line example document. -/
theorem claim_C3_witness :
    (⟨0, "foo".toList, violationMessage ("foo".toList)⟩ : Violation) ∈
      updateDiagnostics exTwoLine :=
  claim_C3_amended_raw_match_emits exTwoLine 0 ("foo".toList) rfl rfl

/-- C4 counterexample: a top banner line with three characters of leading
whitespace differs from the fixed literal yet is still accepted, because the
comparison happens after trimming. -/
theorem claim_C4_counterexample :
    hasValidFormat exLeadingWs 3 ("foo".toList) = true ∧
    getLine exLeadingWs 0 ≠ topBoundary := ⟨rfl, by decide⟩

/-- C4 amended: banner lines are compared against the literals after
trimming; any deviation of the TRIMMED text of a banner line from the fixed
literal makes validation fail (leading and trailing whitespace alone is
ignored). -/
theorem claim_C4_amended_trimmed_literal_mismatch (doc : Doc) (startLine : Nat)
    (name : Line)
    (hdef : defMarker.isPrefixOf (trim (getLine doc startLine)) = true)
    (hmis : trim (getLine doc (startLine - 3)) ≠ topBoundary ∨
      trim (getLine doc (startLine - 2)) ≠ "# ".toList ++ name ∨
      trim (getLine doc (startLine - 1)) ≠ topBoundary) :
    hasValidFormat doc startLine name = false := by
  rw [Bool.eq_false_iff]
  intro ht
  obtain ⟨_, h1, h2, h3, _⟩ := (hasValidFormat_char hdef).mp ht
  rcases hmis with h | h | h
  · exact h h1
  · exact h h2
  · exact h h3

/-- Witness for C4 at a banner carrying the wrong name comment. -/
theorem claim_C4_witness : hasValidFormat exBadName 3 ("foo".toList) = false :=
  claim_C4_amended_trimmed_literal_mismatch exBadName 3 ("foo".toList)
    (by decide) (Or.inr (Or.inl (by decide)))

/-- C5: `findFunctionStartLine doc fromLine` returns the index of the first
def line reachable from `fromLine` across blank and decorator lines only;
it returns `fromLine` unchanged when the first other non-skippable line is
not a def line, and when every line to the end of the document is skippable. -/
theorem claim_C5_findBlockStart_characterization (doc : Doc) (fromLine : Nat) :
    (∀ j, fromLine ≤ j → j < doc.length →
      isDefLine (getLine doc j) = true →
      (∀ k, fromLine ≤ k → k < j → skippable (getLine doc k) = true) →
      findFunctionStartLine doc fromLine = j) ∧
    (∀ j, fromLine ≤ j → j < doc.length →
      isDefLine (getLine doc j) = false →
      skippable (getLine doc j) = false →
      (∀ k, fromLine ≤ k → k < j → skippable (getLine doc k) = true) →
      findFunctionStartLine doc fromLine = fromLine) ∧
    ((∀ k, fromLine ≤ k → k < doc.length → skippable (getLine doc k) = true) →
      findFunctionStartLine doc fromLine = fromLine) := by
  refine ⟨?_, ?_, ?_⟩
  · intro j h1 h2 hdef hsk
    exact findStartGo_found _ fromLine h1 (by omega) hsk hdef
  · intro j h1 h2 hdef hnsk hsk
    exact findStartGo_blocked _ fromLine h1 (by omega) hsk hdef hnsk
  · intro hsk
    exact findStartGo_allSkip _ fromLine (fun k hk1 hk2 => hsk k hk1 (by omega))

/-- Witness for C5: the decorator chain of the example resolves to the def
line at index 2. -/
theorem claim_C5_witness : findFunctionStartLine exDeco 0 = 2 :=
  (claim_C5_findBlockStart_characterization exDeco 0).1 2 (by omega) (by decide)
    (by decide) (fun k hk1 hk2 => by interval_cases k <;> decide)

/-- C6: `findEndOfFunction doc startLine` returns `j - 1` where `j` is the
first line after `startLine` that is non-blank and either less indented than
the start line or a new def line (blank lines never end the block); if no
such line exists it returns the final line index of the document. -/
theorem claim_C6_findBlockEnd_characterization (doc : Doc) (startLine : Nat)
    (h : startLine < doc.length) :
    (∀ j, startLine + 1 ≤ j → j < doc.length →
      endsBlock (indentOf (getLine doc startLine)) (getLine doc j) = true →
      (∀ k, startLine + 1 ≤ k → k < j →
        endsBlock (indentOf (getLine doc startLine)) (getLine doc k) = false) →
      findEndOfFunction doc startLine = j - 1) ∧
    ((∀ k, startLine + 1 ≤ k → k < doc.length →
      endsBlock (indentOf (getLine doc startLine)) (getLine doc k) = false) →
      findEndOfFunction doc startLine = doc.length - 1) := by
  refine ⟨?_, ?_⟩
  · intro j h1 h2 hend hnb
    exact findEndGo_found _ (startLine + 1) h1 (by omega) hnb hend
  · intro hnb
    exact findEndGo_none _ (startLine + 1) (fun k hk1 hk2 => hnb k hk1 (by omega))

/-- Witness for C6: the example function whose body is the last content of
the document ends at the final line of the document. -/
theorem claim_C6_witness : findEndOfFunction exValid 3 = 4 :=
  (claim_C6_findBlockEnd_characterization exValid 3 (by decide)).2
    (fun k hk1 hk2 => by
      have hk5 : k < 5 := lt_of_lt_of_le hk2 (by decide)
      interval_cases k
      decide)

/-- C7: applying the quick-fix insertions for a reported violation and
rescanning yields no violation for that function: no diagnostic of the new
scan sits at the relocated def line. -/
theorem claim_C7_round_trip (doc : Doc) (s : Nat) (name msg : Line)
    (hv : Violation.mk s name msg ∈ updateDiagnostics doc) :
    (updateDiagnostics (generateFixDoc doc s)).all
      (fun w => w.startLine != s + 3) = true := by
  obtain ⟨i, hi, hscan⟩ := updateDiagnostics_inv hv
  obtain ⟨hsl, hm, hvf, hmsg⟩ := scanLine_inv hscan
  rw [List.all_eq_true]
  intro w hw
  rw [bne_iff_ne]
  intro heq
  obtain ⟨i2, hi2, hscan2⟩ := updateDiagnostics_inv hw
  obtain ⟨hsl2, hm2, hv2, hmsg2⟩ := scanLine_inv hscan2
  rw [heq] at hm2 hv2
  obtain ⟨_, _, _, l3⟩ := generateFixDoc_lines hm
  rw [l3, hm] at hm2
  have hname : name = w.name := Option.some_inj.mp hm2
  rw [← hname] at hv2
  have := hasValidFormat_generateFixDoc hm
  rw [hv2] at this
  exact absurd this (by simp)

/-- Witness for C7 at the bannerless two-line example document. -/
theorem claim_C7_witness :
    (updateDiagnostics (generateFixDoc exTwoLine 0)).all
      (fun w => w.startLine != 0 + 3) = true :=
  claim_C7_round_trip exTwoLine 0 ("foo".toList)
    (violationMessage ("foo".toList)) (by decide)

/-- C8: the content or presence of lines after the block end never changes
validity: two documents agreeing on every line up to the block end of a
function give the same validation result at the start line of the function. -/
theorem claim_C8_closing_banner_irrelevant (doc1 doc2 : Doc) (s : Nat)
    (name : Line)
    (hdef : defMarker.isPrefixOf (trim (getLine doc1 s)) = true)
    (hagree : ∀ i, i ≤ findEndOfFunction doc1 s → getLine doc1 i = getLine doc2 i) :
    hasValidFormat doc1 s name = hasValidFormat doc2 s name := by
  have hlen : s < doc1.length := by
    by_contra hge
    rw [getLine_eq_nil (by omega)] at hdef
    exact absurd hdef (by decide)
  have hse : s ≤ findEndOfFunction doc1 s := findEndOfFunction_ge hlen
  have h0 : getLine doc1 s = getLine doc2 s := hagree s hse
  have ha : getLine doc1 (s - 3) = getLine doc2 (s - 3) := hagree _ (by omega)
  have hb : getLine doc1 (s - 2) = getLine doc2 (s - 2) := hagree _ (by omega)
  have hc : getLine doc1 (s - 1) = getLine doc2 (s - 1) := hagree _ (by omega)
  have hdef2 : defMarker.isPrefixOf (trim (getLine doc2 s)) = true := by
    rw [← h0]
    exact hdef
  rw [Bool.eq_iff_iff, hasValidFormat_char hdef, hasValidFormat_char hdef2,
    h0, ha, hb, hc]

/-- Witness for C8: appending a line after the block end of the bannered
example function does not change its validation result. -/
theorem claim_C8_witness :
    hasValidFormat exValid 3 ("foo".toList) =
      hasValidFormat exValidPlus 3 ("foo".toList) :=
  claim_C8_closing_banner_irrelevant exValid exValidPlus 3 ("foo".toList)
    (by decide) (fun i hi => by
      have hi4 : i ≤ 4 := by
        have : findEndOfFunction exValid 3 = 4 := by decide
        omega
      interval_cases i <;> rfl)

/-- C9: a function whose raw def line sits at an index below 3 always yields
an ordinary violation at that line; on the concrete two-line document the
scan reports exactly the one violation at line 0 for `foo`, and the
instrumented scan completes without any out-of-range read. -/
theorem claim_C9_insufficient_room_violation :
    (∀ (doc : Doc) (s : Nat) (name : Line), s < 3 →
      matchDefName (getLine doc s) = some name →
      (⟨s, name, violationMessage name⟩ : Violation) ∈ updateDiagnostics doc) ∧
    updateDiagnostics exTwoLine =
      [⟨0, "foo".toList, violationMessage ("foo".toList)⟩] ∧
    updateDiagnosticsOpt exTwoLine = some (updateDiagnostics exTwoLine) := by
  refine ⟨?_, rfl, rfl⟩
  intro doc s name h3 hm
  apply mem_updateDiagnostics hm
  rw [Bool.eq_false_iff]
  intro ht
  have hge := ((hasValidFormat_char (trim_def_of_matchDefName hm)).mp ht).1
  omega

/-- Witness for C9: in the decorator-chain example the def line sits at index
2 < 3 and its violation is reported. -/
theorem claim_C9_witness :
    (⟨2, "foo".toList, violationMessage ("foo".toList)⟩ : Violation) ∈
      updateDiagnostics exDeco :=
  claim_C9_insufficient_room_violation.1 exDeco 2 ("foo".toList) (by omega) rfl

/-- C10: the scan is a total function of the document text: with every
`lineAt` read made fallible, the instrumented scan never fails and computes
exactly the diagnostics of the total scan, on every document. -/
theorem claim_C10_totality (doc : Doc) :
    updateDiagnosticsOpt doc = some (updateDiagnostics doc) := by
  unfold updateDiagnosticsOpt updateDiagnostics
  rw [mapM_scanLineOpt (List.range doc.length) (fun i hi => List.mem_range.mp hi)]
  simp [List.filterMap_map]

end PythoNinja
